import Mathlib

/-!
Shallow embedding of `src/searches/binary_search.py`.

The Python module defines four pure search functions over sorted lists:
`binary_search`, `binary_search_with_bounds`, `exponential_search` and
`interpolation_search`.  We embed them over Lean lists, with loop cursors
modelled as `Int` (Python integers are unbounded).  Element access goes
through an instrumented accessor `idx` that returns `none` whenever the
index is outside `[0, length-1]`; the `none` is propagated by every loop,
so a search result of `none` models an access outside the valid index
range and `some r` models the Python return value `r` (an index or `-1`).
Python's `x >> 1` and `x << 1` on the non-negative integers appearing here
coincide with `x / 2` (floor) and `x * 2`, which is how we write them.

`interpolation_search` is stated over `Int` elements (the `int` instance of
the Python type variable `T`); Python evaluates the interpolation quotient
by true (float) division followed by `int(...)` truncation, which on the
non-negative exact quotients reached here is floor division, modelled
exactly by `Int` division.
-/

namespace BinSearch

/-- Instrumented list indexing: `some` of the element when the index lies in
`[0, length-1]`, `none` otherwise (an out-of-range access). -/
def idx {α : Type} (l : List α) (i : Int) : Option α :=
  if h : 0 ≤ i ∧ i < (l.length : Int) then
    some (l.get ⟨i.toNat, by omega⟩)
  else
    none

/-- The `while left <= right` loop of `binary_search` (source lines 30-43);
`mid = left + ((right - left) >> 1)` is written out at each use site. -/
def bsLoop {α : Type} [LinearOrder α] (l : List α) (item : α)
    (left right : Int) : Option Int :=
  if hlr : left ≤ right then
    match idx l (left + (right - left) / 2) with
    | none => none
    | some midValue =>
      if midValue = item then some (left + (right - left) / 2)
      else if midValue < item then bsLoop l item ((left + (right - left) / 2) + 1) right
      else bsLoop l item left ((left + (right - left) / 2) - 1)
  else
    some (-1)
termination_by (right + 1 - left).toNat
decreasing_by
  · omega
  · omega

/-- `binary_search(sorted_collection, item)` (source lines 17-44). -/
def binary_search {α : Type} [LinearOrder α] (l : List α) (item : α) : Option Int :=
  bsLoop l item 0 ((l.length : Int) - 1)

/-- The `while left <= right` loop of `binary_search_with_bounds`
(source lines 68-81); its body is textually identical to the one in
`binary_search`. -/
def bswbLoop {α : Type} [LinearOrder α] (l : List α) (item : α)
    (left right : Int) : Option Int :=
  if hlr : left ≤ right then
    match idx l (left + (right - left) / 2) with
    | none => none
    | some midValue =>
      if midValue = item then some (left + (right - left) / 2)
      else if midValue < item then bswbLoop l item ((left + (right - left) / 2) + 1) right
      else bswbLoop l item left ((left + (right - left) / 2) - 1)
  else
    some (-1)
termination_by (right + 1 - left).toNat
decreasing_by
  · omega
  · omega

/-- `binary_search_with_bounds(sorted_collection, item, left=0, right=None)`
(source lines 46-81); `right = none` models Python's `right=None`, replaced
by `len(sorted_collection) - 1`. -/
def binary_search_with_bounds {α : Type} [LinearOrder α] (l : List α) (item : α)
    (left : Int := 0) (right : Option Int := none) : Option Int :=
  bswbLoop l item left
    (match right with
     | none => (l.length : Int) - 1
     | some r => r)

/-- The doubling loop `while bound < length and sorted_collection[bound] < item`
of `exponential_search` (source lines 102-103).  The element access is guarded
by `bound < length` (Python's short-circuit `and`), so it is always in range.
The hypothesis `0 < bound` records that the loop is only entered with
`bound = 1` and doubling preserves positivity; it is what makes the doubling
terminate. -/
def expLoop {α : Type} [LinearOrder α] (l : List α) (item : α)
    (bound : Nat) (hb : 0 < bound) : Nat :=
  if h : bound < l.length then
    if l.get ⟨bound, h⟩ < item then
      expLoop l item (bound * 2) (by omega)
    else bound
  else bound
termination_by l.length - bound
decreasing_by omega

/-- `exponential_search(sorted_collection, item)` (source lines 83-109). -/
def exponential_search {α : Type} [LinearOrder α] (l : List α) (item : α) : Option Int :=
  if l.length = 0 then some (-1)
  else
    let bound := expLoop l item 1 Nat.one_pos
    binary_search_with_bounds l item ((bound / 2 : Nat) : Int)
      (some (min (bound : Int) ((l.length : Int) - 1)))

/-- The loop of `interpolation_search` (source lines 124-144).  The loop
guard `left <= right and l[left] <= item <= l[right]` short-circuits, so
`l[left]` is only read once `left ≤ right` holds and `l[right]` only once
`l[left] ≤ item` holds; the two reads are modelled by `idx` in that order. -/
def interpLoop (l : List Int) (item : Int) (left right : Int) : Option Int :=
  if hlr : left ≤ right then
    match idx l left with
    | none => none
    | some leftValue =>
      if leftValue ≤ item then
        match idx l right with
        | none => none
        | some rightValue =>
          if item ≤ rightValue then
            if leftValue = rightValue then
              some (if leftValue = item then left else -1)
            else
              match idx l (max left (min (left + ((item - leftValue) * (right - left)) / (rightValue - leftValue)) right)) with
              | none => none
              | some posValue =>
                if posValue = item then
                  some (max left (min (left + ((item - leftValue) * (right - left)) / (rightValue - leftValue)) right))
                else if posValue < item then
                  interpLoop l item ((max left (min (left + ((item - leftValue) * (right - left)) / (rightValue - leftValue)) right)) + 1) right
                else
                  interpLoop l item left ((max left (min (left + ((item - leftValue) * (right - left)) / (rightValue - leftValue)) right)) - 1)
          else some (-1)
      else some (-1)
  else
    some (-1)
termination_by (right + 1 - left).toNat
decreasing_by
  · omega
  · omega

/-- `interpolation_search(sorted_collection, item)` (source lines 111-146). -/
def interpolation_search (l : List Int) (item : Int) : Option Int :=
  interpLoop l item 0 ((l.length : Int) - 1)

/-! ### Basic facts about the instrumented accessor -/

lemma idx_eq_get {α : Type} (l : List α) (i : Int) (h0 : 0 ≤ i)
    (hn : i.toNat < l.length) : idx l i = some (l.get ⟨i.toNat, hn⟩) :=
  dif_pos ⟨h0, by omega⟩

lemma idx_bounds {α : Type} {l : List α} {i : Int} {a : α}
    (h : idx l i = some a) : 0 ≤ i ∧ i < (l.length : Int) := by
  by_cases hc : 0 ≤ i ∧ i < (l.length : Int)
  · exact hc
  · rw [idx, dif_neg hc] at h
    exact absurd h (by simp)

lemma idx_get {α : Type} {l : List α} {i : Int} {a : α}
    (h : idx l i = some a) :
    ∃ hn : i.toNat < l.length, l.get ⟨i.toNat, hn⟩ = a := by
  obtain ⟨h0, h1⟩ := idx_bounds h
  have hn : i.toNat < l.length := by omega
  refine ⟨hn, ?_⟩
  rw [idx_eq_get l i h0 hn] at h
  exact Option.some.inj h

/-- A sorted list has monotone entries (stated on `Fin` values). -/
lemma sorted_le {α : Type} [LinearOrder α] {l : List α}
    (hs : l.Sorted (· ≤ ·)) (i j : Fin l.length) (h : i.val ≤ j.val) :
    l.get i ≤ l.get j :=
  hs.get_mono h

/-! ### Branch evaluation lemmas for the binary-search loops -/

lemma bswbLoop_of_not_le {α : Type} [LinearOrder α] (l : List α) (item : α)
    {left right : Int} (h : ¬ left ≤ right) :
    bswbLoop l item left right = some (-1) := by
  rw [bswbLoop, dif_neg h]

lemma bswbLoop_of_none {α : Type} [LinearOrder α] (l : List α) (item : α)
    {left right : Int} (hlr : left ≤ right)
    (hidx : idx l (left + (right - left) / 2) = none) :
    bswbLoop l item left right = none := by
  rw [bswbLoop, dif_pos hlr, hidx]

lemma bswbLoop_of_found {α : Type} [LinearOrder α] (l : List α) (item : α)
    {left right : Int} {midValue : α} (hlr : left ≤ right)
    (hidx : idx l (left + (right - left) / 2) = some midValue)
    (he : midValue = item) :
    bswbLoop l item left right = some (left + (right - left) / 2) := by
  rw [bswbLoop, dif_pos hlr, hidx]
  simp [he]

lemma bswbLoop_of_lt {α : Type} [LinearOrder α] (l : List α) (item : α)
    {left right : Int} {midValue : α} (hlr : left ≤ right)
    (hidx : idx l (left + (right - left) / 2) = some midValue)
    (hne : midValue ≠ item) (hlt : midValue < item) :
    bswbLoop l item left right =
      bswbLoop l item ((left + (right - left) / 2) + 1) right := by
  rw [bswbLoop, dif_pos hlr, hidx]
  simp [hne, hlt]

lemma bswbLoop_of_gt {α : Type} [LinearOrder α] (l : List α) (item : α)
    {left right : Int} {midValue : α} (hlr : left ≤ right)
    (hidx : idx l (left + (right - left) / 2) = some midValue)
    (hne : midValue ≠ item) (hnlt : ¬ midValue < item) :
    bswbLoop l item left right =
      bswbLoop l item left ((left + (right - left) / 2) - 1) := by
  rw [bswbLoop, dif_pos hlr, hidx]
  simp [hne, hnlt]

/-! ### Correctness of the bounded binary-search loop on sorted lists -/

/-- Core correctness of the `binary_search_with_bounds` loop on a sorted
list: if, whenever `item` occurs in the list, it occurs at some index inside
`[left, right]` (the coverage hypothesis), then the loop finds an index
holding `item` whenever `item` occurs in the list and returns `-1`
otherwise. -/
lemma bswbLoop_correct {α : Type} [LinearOrder α] {l : List α} (item : α)
    (hs : l.Sorted (· ≤ ·)) :
    ∀ left right : Int, 0 ≤ left → right < (l.length : Int) →
      (item ∈ l → ∃ i : Fin l.length,
        left ≤ (i.val : Int) ∧ (i.val : Int) ≤ right ∧ l.get i = item) →
      ((item ∈ l → ∃ k : Nat, ∃ hk : k < l.length,
          bswbLoop l item left right = some (k : Int) ∧ l.get ⟨k, hk⟩ = item)
        ∧ (item ∉ l → bswbLoop l item left right = some (-1))) := by
  intro left right
  induction left, right using bswbLoop.induct l item with
  | case1 left right hlr hidx =>
    intro h0 hr _
    exfalso
    have h1 : 0 ≤ left + (right - left) / 2 := by omega
    have hn : (left + (right - left) / 2).toNat < l.length := by omega
    rw [idx_eq_get l _ h1 hn] at hidx
    exact absurd hidx (by simp)
  | case2 left right hlr hidx =>
    intro h0 hr _
    obtain ⟨hn, hget⟩ := idx_get hidx
    constructor
    · intro _
      refine ⟨(left + (right - left) / 2).toNat, hn, ?_, hget⟩
      rw [bswbLoop_of_found l item hlr hidx rfl]
      congr 1
      omega
    · intro hnot
      exact absurd (List.mem_iff_get.mpr ⟨_, hget⟩) hnot
  | case3 left right hlr midValue hidx hne hlt ih =>
    intro h0 hr hcov
    rw [bswbLoop_of_lt l item hlr hidx hne hlt]
    obtain ⟨hn, hget⟩ := idx_get hidx
    refine ih (by omega) hr ?_
    intro hmem
    obtain ⟨i, hi1, hi2, hi3⟩ := hcov hmem
    refine ⟨i, ?_, hi2, hi3⟩
    by_contra hcon
    push_neg at hcon
    have hle : l.get i ≤ midValue := by
      rw [← hget]
      exact sorted_le hs i _ (show i.val ≤ (left + (right - left) / 2).toNat by omega)
    rw [hi3] at hle
    exact absurd (lt_of_le_of_lt hle hlt) (lt_irrefl item)
  | case4 left right hlr midValue hidx hne hnlt ih =>
    intro h0 hr hcov
    rw [bswbLoop_of_gt l item hlr hidx hne hnlt]
    obtain ⟨hn, hget⟩ := idx_get hidx
    have hgt : item < midValue := lt_of_le_of_ne (not_lt.mp hnlt) (Ne.symm hne)
    refine ih h0 (by omega) ?_
    intro hmem
    obtain ⟨i, hi1, hi2, hi3⟩ := hcov hmem
    refine ⟨i, hi1, ?_, hi3⟩
    by_contra hcon
    push_neg at hcon
    have hle : midValue ≤ l.get i := by
      rw [← hget]
      exact sorted_le hs _ i (show (left + (right - left) / 2).toNat ≤ i.val by omega)
    rw [hi3] at hle
    exact absurd (lt_of_lt_of_le hgt hle) (lt_irrefl item)
  | case5 left right hlr =>
    intro h0 hr hcov
    rw [bswbLoop_of_not_le l item hlr]
    refine ⟨fun hmem => absurd (hcov hmem) ?_, fun _ => rfl⟩
    rintro ⟨i, hi1, hi2, _⟩
    omega

/-! ### The standalone `binary_search` loop coincides with the bounded loop -/

lemma bsLoop_of_not_le {α : Type} [LinearOrder α] (l : List α) (item : α)
    {left right : Int} (h : ¬ left ≤ right) :
    bsLoop l item left right = some (-1) := by
  rw [bsLoop, dif_neg h]

lemma bsLoop_of_none {α : Type} [LinearOrder α] (l : List α) (item : α)
    {left right : Int} (hlr : left ≤ right)
    (hidx : idx l (left + (right - left) / 2) = none) :
    bsLoop l item left right = none := by
  rw [bsLoop, dif_pos hlr, hidx]

lemma bsLoop_of_found {α : Type} [LinearOrder α] (l : List α) (item : α)
    {left right : Int} {midValue : α} (hlr : left ≤ right)
    (hidx : idx l (left + (right - left) / 2) = some midValue)
    (he : midValue = item) :
    bsLoop l item left right = some (left + (right - left) / 2) := by
  rw [bsLoop, dif_pos hlr, hidx]
  simp [he]

lemma bsLoop_of_lt {α : Type} [LinearOrder α] (l : List α) (item : α)
    {left right : Int} {midValue : α} (hlr : left ≤ right)
    (hidx : idx l (left + (right - left) / 2) = some midValue)
    (hne : midValue ≠ item) (hlt : midValue < item) :
    bsLoop l item left right =
      bsLoop l item ((left + (right - left) / 2) + 1) right := by
  rw [bsLoop, dif_pos hlr, hidx]
  simp [hne, hlt]

lemma bsLoop_of_gt {α : Type} [LinearOrder α] (l : List α) (item : α)
    {left right : Int} {midValue : α} (hlr : left ≤ right)
    (hidx : idx l (left + (right - left) / 2) = some midValue)
    (hne : midValue ≠ item) (hnlt : ¬ midValue < item) :
    bsLoop l item left right =
      bsLoop l item left ((left + (right - left) / 2) - 1) := by
  rw [bsLoop, dif_pos hlr, hidx]
  simp [hne, hnlt]

/-- The two textually identical loops compute the same function. -/
lemma bsLoop_eq_bswbLoop {α : Type} [LinearOrder α] (l : List α) (item : α) :
    ∀ left right : Int, bsLoop l item left right = bswbLoop l item left right := by
  intro left right
  induction left, right using bsLoop.induct l item with
  | case1 left right hlr hidx =>
    rw [bsLoop_of_none l item hlr hidx, bswbLoop_of_none l item hlr hidx]
  | case2 left right hlr hidx =>
    rw [bsLoop_of_found l item hlr hidx rfl, bswbLoop_of_found l item hlr hidx rfl]
  | case3 left right hlr midValue hidx hne hlt ih =>
    rw [bsLoop_of_lt l item hlr hidx hne hlt,
        bswbLoop_of_lt l item hlr hidx hne hlt, ih]
  | case4 left right hlr midValue hidx hne hnlt ih =>
    rw [bsLoop_of_gt l item hlr hidx hne hnlt,
        bswbLoop_of_gt l item hlr hidx hne hnlt, ih]
  | case5 left right hlr =>
    rw [bsLoop_of_not_le l item hlr, bswbLoop_of_not_le l item hlr]

/-! ### The bounded loop never reads out of range when started in range -/

lemma bswbLoop_isSome {α : Type} [LinearOrder α] (l : List α) (item : α) :
    ∀ left right : Int, 0 ≤ left → right < (l.length : Int) →
      (bswbLoop l item left right).isSome := by
  intro left right
  induction left, right using bswbLoop.induct l item with
  | case1 left right hlr hidx =>
    intro h0 hr
    have h1 : 0 ≤ left + (right - left) / 2 := by omega
    have hn : (left + (right - left) / 2).toNat < l.length := by omega
    rw [idx_eq_get l _ h1 hn] at hidx
    exact absurd hidx (by simp)
  | case2 left right hlr hidx =>
    intro h0 hr
    rw [bswbLoop_of_found l item hlr hidx rfl]
    rfl
  | case3 left right hlr midValue hidx hne hlt ih =>
    intro h0 hr
    rw [bswbLoop_of_lt l item hlr hidx hne hlt]
    exact ih (by omega) hr
  | case4 left right hlr midValue hidx hne hnlt ih =>
    intro h0 hr
    rw [bswbLoop_of_gt l item hlr hidx hne hnlt]
    exact ih h0 (by omega)
  | case5 left right hlr =>
    intro h0 hr
    rw [bswbLoop_of_not_le l item hlr]
    rfl

lemma getElem?_eq_get {α : Type} {l : List α} {n : Nat} (h : n < l.length) :
    l[n]? = some (l.get ⟨n, h⟩) := by
  simp [List.getElem?_eq_getElem h, List.get_eq_getElem]

lemma getElem?_some_lt {α : Type} {l : List α} {n : Nat} {a : α}
    (h : l[n]? = some a) : n < l.length := by
  by_contra hc
  have hnone : l[n]? = none := List.getElem?_eq_none (by omega)
  rw [hnone] at h
  exact absurd h (by simp)

/-- `binary_search` on a sorted list finds an index holding the item when the
item occurs, and returns `-1` when it does not. -/
lemma binary_search_spec {α : Type} [LinearOrder α] (l : List α) (item : α)
    (hs : l.Sorted (· ≤ ·)) :
    (item ∈ l → ∃ k : Nat, ∃ hk : k < l.length,
        binary_search l item = some (k : Int) ∧ l.get ⟨k, hk⟩ = item)
    ∧ (item ∉ l → binary_search l item = some (-1)) := by
  have h := bswbLoop_correct item hs 0 ((l.length : Int) - 1) le_rfl (by omega) ?_
  · unfold binary_search
    rw [bsLoop_eq_bswbLoop]
    exact h
  · intro hmem
    obtain ⟨i, hget⟩ := List.mem_iff_get.mp hmem
    exact ⟨i, by omega, by have := i.isLt; omega, hget⟩

/-! ### The exponential probing loop -/

lemma expLoop_of_stop_outer {α : Type} [LinearOrder α] (l : List α) (item : α)
    {bound : Nat} (hb : 0 < bound) (h : ¬ bound < l.length) :
    expLoop l item bound hb = bound := by
  rw [expLoop, dif_neg h]

lemma expLoop_of_stop_inner {α : Type} [LinearOrder α] (l : List α) (item : α)
    {bound : Nat} (hb : 0 < bound) (h : bound < l.length)
    (h2 : ¬ l.get ⟨bound, h⟩ < item) :
    expLoop l item bound hb = bound := by
  rw [expLoop, dif_pos h, if_neg h2]

lemma expLoop_of_step {α : Type} [LinearOrder α] (l : List α) (item : α)
    {bound : Nat} (hb : 0 < bound) (h : bound < l.length)
    (h2 : l.get ⟨bound, h⟩ < item) :
    expLoop l item bound hb = expLoop l item (bound * 2) (by omega) := by
  rw [expLoop, dif_pos h, if_pos h2]

/-- Summary of the doubling loop: the final bound is at least the initial
one; the element at the final bound, when in range, is not below `item`;
and either the loop never ran (final bound = initial bound) or the final
bound is even and the element at its half is below `item`. -/
lemma expLoop_spec {α : Type} [LinearOrder α] (l : List α) (item : α) :
    ∀ (bound : Nat) (hb : 0 < bound),
      bound ≤ expLoop l item bound hb ∧
      (∀ v, l[expLoop l item bound hb]? = some v → ¬ v < item) ∧
      (expLoop l item bound hb = bound ∨
        (expLoop l item bound hb % 2 = 0 ∧
          ∃ v, l[expLoop l item bound hb / 2]? = some v ∧ v < item)) := by
  intro bound hb
  induction bound, hb using expLoop.induct l item with
  | case1 bound hb h h2 ih =>
    rw [expLoop_of_step l item hb h h2]
    refine ⟨le_trans (by omega) ih.1, ih.2.1, ?_⟩
    rcases ih.2.2 with heq | hex
    · right
      refine ⟨by omega, l.get ⟨bound, h⟩, ?_, h2⟩
      rw [heq]
      have hd : bound * 2 / 2 = bound := by omega
      rw [hd, getElem?_eq_get h]
    · right
      exact hex
  | case2 bound hb h h2 =>
    rw [expLoop_of_stop_inner l item hb h h2]
    refine ⟨le_rfl, ?_, Or.inl rfl⟩
    intro v hv
    rw [getElem?_eq_get h] at hv
    exact (Option.some.inj hv) ▸ h2
  | case3 bound hb h =>
    rw [expLoop_of_stop_outer l item hb h]
    refine ⟨le_rfl, ?_, Or.inl rfl⟩
    intro v hv
    have hnone : l[bound]? = none := List.getElem?_eq_none (by omega)
    rw [hnone] at hv
    exact absurd hv (by simp)

/-- `exponential_search` on a sorted list finds an index holding the item
when the item occurs, and returns `-1` when it does not. -/
lemma exponential_search_spec {α : Type} [LinearOrder α] (l : List α) (item : α)
    (hs : l.Sorted (· ≤ ·)) :
    (item ∈ l → ∃ k : Nat, ∃ hk : k < l.length,
        exponential_search l item = some (k : Int) ∧ l.get ⟨k, hk⟩ = item)
    ∧ (item ∉ l → exponential_search l item = some (-1)) := by
  by_cases hlen : l.length = 0
  · have hnil : l = [] := List.length_eq_zero.mp hlen
    subst hnil
    constructor
    · intro hmem
      exact absurd hmem (List.not_mem_nil item)
    · intro _
      simp [exponential_search]
  · have hlen1 : 1 ≤ l.length := by omega
    obtain ⟨hge, hupper, hhalf⟩ := expLoop_spec l item 1 Nat.one_pos
    have hunfold : exponential_search l item =
        bswbLoop l item ((expLoop l item 1 Nat.one_pos / 2 : Nat) : Int)
          (min ((expLoop l item 1 Nat.one_pos : Nat) : Int) ((l.length : Int) - 1)) := by
      rw [exponential_search, if_neg hlen]
      rfl
    rw [hunfold]
    refine bswbLoop_correct item hs _ _ (by omega) (by omega) ?_
    intro hmem
    obtain ⟨j, hj⟩ := List.mem_iff_get.mp hmem
    have hjlt := j.isLt
    by_cases hjlow : (j.val : Int) < ((expLoop l item 1 Nat.one_pos / 2 : Nat) : Int)
    · exfalso
      rcases hhalf with h1 | ⟨hmod, v, hv, hvlt⟩
      · omega
      · have hlt' : expLoop l item 1 Nat.one_pos / 2 < l.length := getElem?_some_lt hv
        rw [getElem?_eq_get hlt'] at hv
        have hmono : l.get j ≤ l.get ⟨expLoop l item 1 Nat.one_pos / 2, hlt'⟩ :=
          sorted_le hs j _ (show j.val ≤ expLoop l item 1 Nat.one_pos / 2 by omega)
        rw [hj, Option.some.inj hv] at hmono
        exact absurd (lt_of_le_of_lt hmono hvlt) (lt_irrefl item)
    · by_cases hjhigh :
          min ((expLoop l item 1 Nat.one_pos : Nat) : Int) ((l.length : Int) - 1) < (j.val : Int)
      · have hBl : expLoop l item 1 Nat.one_pos < l.length := by omega
        have hnotlt := hupper _ (getElem?_eq_get hBl)
        have hle : l.get ⟨expLoop l item 1 Nat.one_pos, hBl⟩ ≤ l.get j :=
          sorted_le hs _ j (show expLoop l item 1 Nat.one_pos ≤ j.val by omega)
        have heq : l.get ⟨expLoop l item 1 Nat.one_pos, hBl⟩ = item :=
          le_antisymm (hj ▸ hle) (not_lt.mp hnotlt)
        refine ⟨⟨expLoop l item 1 Nat.one_pos, hBl⟩, ?_, ?_, heq⟩
        · show ((expLoop l item 1 Nat.one_pos / 2 : Nat) : Int) ≤
            ((expLoop l item 1 Nat.one_pos : Nat) : Int)
          omega
        · show ((expLoop l item 1 Nat.one_pos : Nat) : Int) ≤
            min ((expLoop l item 1 Nat.one_pos : Nat) : Int) ((l.length : Int) - 1)
          omega
      · exact ⟨j, by omega, by omega, hj⟩

/-! ### Restricting the bounded loop to a slice -/

lemma slice_length {α : Type} (l : List α) (low high : Int)
    (h0 : 0 ≤ low) (hh : high < (l.length : Int)) :
    ((l.drop low.toNat).take (high - low + 1).toNat).length = (high - low + 1).toNat := by
  simp
  omega

lemma slice_get {α : Type} (l : List α) (low high : Int) (k : Nat)
    (hk : k < ((l.drop low.toNat).take (high - low + 1).toNat).length)
    (hk2 : low.toNat + k < l.length) :
    ((l.drop low.toNat).take (high - low + 1).toNat).get ⟨k, hk⟩ =
      l.get ⟨low.toNat + k, hk2⟩ := by
  simp [List.get_eq_getElem, List.getElem_take, List.getElem_drop]

/-- Reading the slice `S[low..high]` at `i` is reading `S` at `low + i`. -/
lemma idx_slice {α : Type} (l : List α) (low high i : Int)
    (h0 : 0 ≤ low) (hh : high < (l.length : Int))
    (hi0 : 0 ≤ i) (hi1 : i ≤ high - low) :
    idx ((l.drop low.toNat).take (high - low + 1).toNat) i = idx l (low + i) := by
  have hlen := slice_length l low high h0 hh
  have hi' : i.toNat < ((l.drop low.toNat).take (high - low + 1).toNat).length := by omega
  have hk2 : low.toNat + i.toNat < l.length := by omega
  have hn2 : (low + i).toNat < l.length := by omega
  rw [idx_eq_get _ i hi0 hi', idx_eq_get l (low + i) (by omega) hn2,
    slice_get l low high i.toNat hi' hk2]
  have hfin : (⟨low.toNat + i.toNat, hk2⟩ : Fin l.length) = ⟨(low + i).toNat, hn2⟩ :=
    Fin.ext (show low.toNat + i.toNat = (low + i).toNat by omega)
  rw [hfin]

/-- The bounded loop on `[low + left, low + right]` tracks the loop on the
slice `S[low..high]` over `[left, right]`, with found indices shifted by
`low` and `-1` kept as `-1`. -/
lemma bswbLoop_slice {α : Type} [LinearOrder α] (l : List α) (item : α)
    (low high : Int) (h0 : 0 ≤ low) (hh : high < (l.length : Int)) :
    ∀ left right : Int, 0 ≤ left → right ≤ high - low →
      bswbLoop l item (low + left) (low + right) =
        (bswbLoop ((l.drop low.toNat).take (high - low + 1).toNat) item left right).map
          (fun r => if r = -1 then -1 else r + low) := by
  intro left right
  induction left, right
    using bswbLoop.induct ((l.drop low.toNat).take (high - low + 1).toNat) item with
  | case1 left right hlr hidx =>
    intro hl0 hrh
    exfalso
    rw [idx_slice l low high _ h0 hh (by omega) (by omega)] at hidx
    have h1 : 0 ≤ low + (left + (right - left) / 2) := by omega
    have hn : (low + (left + (right - left) / 2)).toNat < l.length := by omega
    rw [idx_eq_get l _ h1 hn] at hidx
    exact absurd hidx (by simp)
  | case2 left right hlr hidx =>
    intro hl0 hrh
    have hidxl : idx l (low + (left + (right - left) / 2)) = some item := by
      rw [← idx_slice l low high _ h0 hh (by omega) (by omega)]
      exact hidx
    have hmid : (low + left) + ((low + right) - (low + left)) / 2 =
        low + (left + (right - left) / 2) := by omega
    rw [bswbLoop_of_found l item (show low + left ≤ low + right by omega)
      (show idx l ((low + left) + ((low + right) - (low + left)) / 2) = some item by
        rw [hmid]; exact hidxl) rfl]
    rw [bswbLoop_of_found _ item hlr hidx rfl]
    simp only [Option.map_some']
    rw [if_neg (show ¬ (left + (right - left) / 2 = -1) by omega)]
    congr 1
    omega
  | case3 left right hlr midValue hidx hne hlt ih =>
    intro hl0 hrh
    have hidxl : idx l (low + (left + (right - left) / 2)) = some midValue := by
      rw [← idx_slice l low high _ h0 hh (by omega) (by omega)]
      exact hidx
    have hmid : (low + left) + ((low + right) - (low + left)) / 2 =
        low + (left + (right - left) / 2) := by omega
    rw [bswbLoop_of_lt l item (show low + left ≤ low + right by omega)
      (show idx l ((low + left) + ((low + right) - (low + left)) / 2) = some midValue by
        rw [hmid]; exact hidxl) hne hlt]
    rw [bswbLoop_of_lt _ item hlr hidx hne hlt]
    have hstep : (low + left) + ((low + right) - (low + left)) / 2 + 1 =
        low + (left + (right - left) / 2 + 1) := by omega
    rw [hstep]
    exact ih (by omega) hrh
  | case4 left right hlr midValue hidx hne hnlt ih =>
    intro hl0 hrh
    have hidxl : idx l (low + (left + (right - left) / 2)) = some midValue := by
      rw [← idx_slice l low high _ h0 hh (by omega) (by omega)]
      exact hidx
    have hmid : (low + left) + ((low + right) - (low + left)) / 2 =
        low + (left + (right - left) / 2) := by omega
    rw [bswbLoop_of_gt l item (show low + left ≤ low + right by omega)
      (show idx l ((low + left) + ((low + right) - (low + left)) / 2) = some midValue by
        rw [hmid]; exact hidxl) hne hnlt]
    rw [bswbLoop_of_gt _ item hlr hidx hne hnlt]
    have hstep : (low + left) + ((low + right) - (low + left)) / 2 - 1 =
        low + (left + (right - left) / 2 - 1) := by omega
    rw [hstep]
    exact ih hl0 (by omega)
  | case5 left right hlr =>
    intro _ _
    rw [bswbLoop_of_not_le _ item hlr,
      bswbLoop_of_not_le l item (show ¬ (low + left ≤ low + right) by omega)]
    simp

/-! ### Branch evaluation lemmas for the interpolation loop -/

lemma interpLoop_of_not_le (l : List Int) (item : Int) {left right : Int}
    (h : ¬ left ≤ right) : interpLoop l item left right = some (-1) := by
  rw [interpLoop, dif_neg h]

lemma interpLoop_of_left_gt (l : List Int) (item : Int) {left right leftValue : Int}
    (hlr : left ≤ right) (hL : idx l left = some leftValue)
    (h : ¬ leftValue ≤ item) : interpLoop l item left right = some (-1) := by
  rw [interpLoop, dif_pos hlr, hL]
  simp [h]

lemma interpLoop_of_right_lt (l : List Int) (item : Int)
    {left right leftValue rightValue : Int}
    (hlr : left ≤ right) (hL : idx l left = some leftValue)
    (hvl : leftValue ≤ item) (hR : idx l right = some rightValue)
    (h : ¬ item ≤ rightValue) : interpLoop l item left right = some (-1) := by
  rw [interpLoop, dif_pos hlr, hL]
  simp only [if_pos hvl, hR]
  simp [h]

lemma interpLoop_of_eq (l : List Int) (item : Int)
    {left right leftValue rightValue : Int}
    (hlr : left ≤ right) (hL : idx l left = some leftValue)
    (hvl : leftValue ≤ item) (hR : idx l right = some rightValue)
    (hvr : item ≤ rightValue) (heq : leftValue = rightValue) :
    interpLoop l item left right = some (if leftValue = item then left else -1) := by
  rw [interpLoop, dif_pos hlr, hL]
  simp only [if_pos hvl, hR]
  simp [hvr, heq]

lemma interpLoop_of_pos_found (l : List Int) (item : Int)
    {left right leftValue rightValue : Int}
    (hlr : left ≤ right) (hL : idx l left = some leftValue)
    (hvl : leftValue ≤ item) (hR : idx l right = some rightValue)
    (hvr : item ≤ rightValue) (hne : leftValue ≠ rightValue)
    (hP : idx l (max left (min (left + ((item - leftValue) * (right - left)) / (rightValue - leftValue)) right)) = some item) :
    interpLoop l item left right =
      some (max left (min (left + ((item - leftValue) * (right - left)) / (rightValue - leftValue)) right)) := by
  rw [interpLoop, dif_pos hlr, hL]
  simp only [if_pos hvl, hR]
  simp only [if_pos hvr, if_neg hne, hP]
  simp

lemma interpLoop_of_pos_lt (l : List Int) (item : Int)
    {left right leftValue rightValue posValue : Int}
    (hlr : left ≤ right) (hL : idx l left = some leftValue)
    (hvl : leftValue ≤ item) (hR : idx l right = some rightValue)
    (hvr : item ≤ rightValue) (hne : leftValue ≠ rightValue)
    (hP : idx l (max left (min (left + ((item - leftValue) * (right - left)) / (rightValue - leftValue)) right)) = some posValue)
    (hpne : posValue ≠ item) (hplt : posValue < item) :
    interpLoop l item left right =
      interpLoop l item
        ((max left (min (left + ((item - leftValue) * (right - left)) / (rightValue - leftValue)) right)) + 1)
        right := by
  rw [interpLoop, dif_pos hlr, hL]
  simp only [if_pos hvl, hR]
  simp only [if_pos hvr, if_neg hne, hP]
  simp [hpne, hplt]

lemma interpLoop_of_pos_gt (l : List Int) (item : Int)
    {left right leftValue rightValue posValue : Int}
    (hlr : left ≤ right) (hL : idx l left = some leftValue)
    (hvl : leftValue ≤ item) (hR : idx l right = some rightValue)
    (hvr : item ≤ rightValue) (hne : leftValue ≠ rightValue)
    (hP : idx l (max left (min (left + ((item - leftValue) * (right - left)) / (rightValue - leftValue)) right)) = some posValue)
    (hpne : posValue ≠ item) (hpnlt : ¬ posValue < item) :
    interpLoop l item left right =
      interpLoop l item left
        ((max left (min (left + ((item - leftValue) * (right - left)) / (rightValue - leftValue)) right)) - 1) := by
  rw [interpLoop, dif_pos hlr, hL]
  simp only [if_pos hvl, hR]
  simp only [if_pos hvr, if_neg hne, hP]
  simp [hpne, hpnlt]

/-- Core correctness of the interpolation loop on a sorted list, with the
same coverage hypothesis as `bswbLoop_correct`. -/
lemma interpLoop_correct {l : List Int} (item : Int) (hs : l.Sorted (· ≤ ·)) :
    ∀ left right : Int, 0 ≤ left → right < (l.length : Int) →
      (item ∈ l → ∃ i : Fin l.length,
        left ≤ (i.val : Int) ∧ (i.val : Int) ≤ right ∧ l.get i = item) →
      ((item ∈ l → ∃ k : Nat, ∃ hk : k < l.length,
          interpLoop l item left right = some (k : Int) ∧ l.get ⟨k, hk⟩ = item)
        ∧ (item ∉ l → interpLoop l item left right = some (-1))) := by
  intro left right
  induction left, right using interpLoop.induct l item with
  | case1 left right hlr hL =>
    intro h0 hr _
    exfalso
    have hn : left.toNat < l.length := by omega
    rw [idx_eq_get l left h0 hn] at hL
    exact absurd hL (by simp)
  | case2 left right hlr leftValue hL hvl hR =>
    intro h0 hr _
    exfalso
    have hn : right.toNat < l.length := by omega
    rw [idx_eq_get l right (by omega) hn] at hR
    exact absurd hR (by simp)
  | case3 left right hlr v hR hvr hL hvl =>
    intro h0 hr _
    have hv : v = item := le_antisymm hvl hvr
    obtain ⟨hn, hget⟩ := idx_get hL
    constructor
    · intro _
      refine ⟨left.toNat, hn, ?_, by rw [hget, hv]⟩
      rw [interpLoop_of_eq l item hlr hL hvl hR hvr rfl, if_pos hv]
      congr 1
      omega
    · intro hnot
      exact absurd (List.mem_iff_get.mpr ⟨_, by rw [hget, hv]⟩) hnot
  | case4 left right hlr lv hL hvl rv hR hvr hne hP =>
    intro h0 hr _
    exfalso
    have hn : (max left (min (left + ((item - lv) * (right - left)) / (rv - lv)) right)).toNat
        < l.length := by omega
    rw [idx_eq_get l _ (by omega) hn] at hP
    exact absurd hP (by simp)
  | case5 left right hlr lv hL hvl rv hR hvr hne hP =>
    intro h0 hr _
    obtain ⟨hn, hget⟩ := idx_get hP
    constructor
    · intro _
      refine ⟨_, hn, ?_, hget⟩
      rw [interpLoop_of_pos_found l item hlr hL hvl hR hvr hne hP]
      congr 1
      omega
    · intro hnot
      exact absurd (List.mem_iff_get.mpr ⟨_, hget⟩) hnot
  | case6 left right hlr lv hL hvl rv hR hvr hne pv hP hpne hplt ih =>
    intro h0 hr hcov
    rw [interpLoop_of_pos_lt l item hlr hL hvl hR hvr hne hP hpne hplt]
    obtain ⟨hn, hget⟩ := idx_get hP
    refine ih (by omega) hr ?_
    intro hmem
    obtain ⟨i, hi1, hi2, hi3⟩ := hcov hmem
    refine ⟨i, ?_, hi2, hi3⟩
    by_contra hcon
    push_neg at hcon
    have hle : l.get i ≤ pv := by
      rw [← hget]
      exact sorted_le hs i _ (show i.val ≤
        (max left (min (left + ((item - lv) * (right - left)) / (rv - lv)) right)).toNat by omega)
    rw [hi3] at hle
    exact absurd (lt_of_le_of_lt hle hplt) (lt_irrefl item)
  | case7 left right hlr lv hL hvl rv hR hvr hne pv hP hpne hpnlt ih =>
    intro h0 hr hcov
    rw [interpLoop_of_pos_gt l item hlr hL hvl hR hvr hne hP hpne hpnlt]
    obtain ⟨hn, hget⟩ := idx_get hP
    have hgt : item < pv := lt_of_le_of_ne (not_lt.mp hpnlt) (Ne.symm hpne)
    refine ih h0 (by omega) ?_
    intro hmem
    obtain ⟨i, hi1, hi2, hi3⟩ := hcov hmem
    refine ⟨i, hi1, ?_, hi3⟩
    by_contra hcon
    push_neg at hcon
    have hle : pv ≤ l.get i := by
      rw [← hget]
      exact sorted_le hs _ i (show
        (max left (min (left + ((item - lv) * (right - left)) / (rv - lv)) right)).toNat ≤ i.val
        by omega)
    rw [hi3] at hle
    exact absurd (lt_of_lt_of_le hgt hle) (lt_irrefl item)
  | case8 left right hlr lv hL hvl rv hR hnvr =>
    intro h0 hr hcov
    constructor
    · intro hmem
      exfalso
      obtain ⟨i, hi1, hi2, hi3⟩ := hcov hmem
      obtain ⟨hn, hget⟩ := idx_get hR
      have hle : l.get i ≤ rv := by
        rw [← hget]
        exact sorted_le hs i _ (show i.val ≤ right.toNat by omega)
      rw [hi3] at hle
      exact hnvr hle
    · intro _
      exact interpLoop_of_right_lt l item hlr hL hvl hR hnvr
  | case9 left right hlr lv hL hnvl =>
    intro h0 hr hcov
    constructor
    · intro hmem
      exfalso
      obtain ⟨i, hi1, hi2, hi3⟩ := hcov hmem
      obtain ⟨hn, hget⟩ := idx_get hL
      have hle : lv ≤ l.get i := by
        rw [← hget]
        exact sorted_le hs _ i (show left.toNat ≤ i.val by omega)
      rw [hi3] at hle
      exact hnvl hle
    · intro _
      exact interpLoop_of_left_gt l item hlr hL hnvl
  | case10 left right hlr =>
    intro h0 hr hcov
    rw [interpLoop_of_not_le l item hlr]
    refine ⟨fun hmem => absurd (hcov hmem) ?_, fun _ => rfl⟩
    rintro ⟨i, hi1, hi2, _⟩
    omega

/-- `interpolation_search` on a sorted list finds an index holding the item
when the item occurs, and returns `-1` when it does not. -/
lemma interpolation_search_spec (l : List Int) (item : Int) (hs : l.Sorted (· ≤ ·)) :
    (item ∈ l → ∃ k : Nat, ∃ hk : k < l.length,
        interpolation_search l item = some (k : Int) ∧ l.get ⟨k, hk⟩ = item)
    ∧ (item ∉ l → interpolation_search l item = some (-1)) := by
  have h := interpLoop_correct item hs 0 ((l.length : Int) - 1) le_rfl (by omega) ?_
  · unfold interpolation_search
    exact h
  · intro hmem
    obtain ⟨i, hget⟩ := List.mem_iff_get.mp hmem
    exact ⟨i, by omega, by have := i.isLt; omega, hget⟩

/-! ### Remaining branch lemmas (out-of-range reads) for the interpolation loop -/

lemma interpLoop_of_left_none (l : List Int) (item : Int) {left right : Int}
    (hlr : left ≤ right) (hL : idx l left = none) :
    interpLoop l item left right = none := by
  rw [interpLoop, dif_pos hlr, hL]

lemma interpLoop_of_right_none (l : List Int) (item : Int)
    {left right leftValue : Int}
    (hlr : left ≤ right) (hL : idx l left = some leftValue)
    (hvl : leftValue ≤ item) (hR : idx l right = none) :
    interpLoop l item left right = none := by
  rw [interpLoop, dif_pos hlr, hL]
  simp [hvl, hR]

lemma interpLoop_of_pos_none (l : List Int) (item : Int)
    {left right leftValue rightValue : Int}
    (hlr : left ≤ right) (hL : idx l left = some leftValue)
    (hvl : leftValue ≤ item) (hR : idx l right = some rightValue)
    (hvr : item ≤ rightValue) (hne : leftValue ≠ rightValue)
    (hP : idx l (max left (min (left + ((item - leftValue) * (right - left)) / (rightValue - leftValue)) right)) = none) :
    interpLoop l item left right = none := by
  rw [interpLoop, dif_pos hlr, hL]
  simp only [if_pos hvl, hR]
  simp [hvr, hne, hP]

/-! ### The searches stay inside the valid index range -/

lemma interpLoop_isSome (l : List Int) (item : Int) :
    ∀ left right : Int, 0 ≤ left → right < (l.length : Int) →
      (interpLoop l item left right).isSome := by
  intro left right
  induction left, right using interpLoop.induct l item with
  | case1 left right hlr hL =>
    intro h0 hr
    exfalso
    have hn : left.toNat < l.length := by omega
    rw [idx_eq_get l left h0 hn] at hL
    exact absurd hL (by simp)
  | case2 left right hlr leftValue hL hvl hR =>
    intro h0 hr
    exfalso
    have hn : right.toNat < l.length := by omega
    rw [idx_eq_get l right (by omega) hn] at hR
    exact absurd hR (by simp)
  | case3 left right hlr v hR hvr hL hvl =>
    intro h0 hr
    rw [interpLoop_of_eq l item hlr hL hvl hR hvr rfl]
    rfl
  | case4 left right hlr lv hL hvl rv hR hvr hne hP =>
    intro h0 hr
    exfalso
    have hn : (max left (min (left + ((item - lv) * (right - left)) / (rv - lv)) right)).toNat
        < l.length := by omega
    rw [idx_eq_get l _ (by omega) hn] at hP
    exact absurd hP (by simp)
  | case5 left right hlr lv hL hvl rv hR hvr hne hP =>
    intro h0 hr
    rw [interpLoop_of_pos_found l item hlr hL hvl hR hvr hne hP]
    rfl
  | case6 left right hlr lv hL hvl rv hR hvr hne pv hP hpne hplt ih =>
    intro h0 hr
    rw [interpLoop_of_pos_lt l item hlr hL hvl hR hvr hne hP hpne hplt]
    exact ih (by omega) hr
  | case7 left right hlr lv hL hvl rv hR hvr hne pv hP hpne hpnlt ih =>
    intro h0 hr
    rw [interpLoop_of_pos_gt l item hlr hL hvl hR hvr hne hP hpne hpnlt]
    exact ih h0 (by omega)
  | case8 left right hlr lv hL hvl rv hR hnvr =>
    intro h0 hr
    rw [interpLoop_of_right_lt l item hlr hL hvl hR hnvr]
    rfl
  | case9 left right hlr lv hL hnvl =>
    intro h0 hr
    rw [interpLoop_of_left_gt l item hlr hL hnvl]
    rfl
  | case10 left right hlr =>
    intro h0 hr
    rw [interpLoop_of_not_le l item hlr]
    rfl

lemma binary_search_isSome {α : Type} [LinearOrder α] (l : List α) (item : α) :
    (binary_search l item).isSome := by
  unfold binary_search
  rw [bsLoop_eq_bswbLoop]
  exact bswbLoop_isSome l item 0 _ le_rfl (by omega)

lemma exponential_search_isSome {α : Type} [LinearOrder α] (l : List α) (item : α) :
    (exponential_search l item).isSome := by
  by_cases hlen : l.length = 0
  · rw [exponential_search, if_pos hlen]
    rfl
  · have hunfold : exponential_search l item =
        bswbLoop l item ((expLoop l item 1 Nat.one_pos / 2 : Nat) : Int)
          (min ((expLoop l item 1 Nat.one_pos : Nat) : Int) ((l.length : Int) - 1)) := by
      rw [exponential_search, if_neg hlen]
      rfl
    rw [hunfold]
    exact bswbLoop_isSome l item _ _ (by omega) (by omega)

lemma interpolation_search_isSome (l : List Int) (item : Int) :
    (interpolation_search l item).isSome := by
  unfold interpolation_search
  exact interpLoop_isSome l item 0 _ le_rfl (by omega)

/-! ### Fuel-indexed loop bodies

Each loop is replayed with an explicit iteration budget; `none` (outer)
means the budget was exhausted.  The bridge lemmas below show a budget of
`high - low + 1` iterations (respectively `length - bound` doublings)
always suffices, which is the termination argument for the Python `while`
loops: `right - left` strictly decreases, and `bound` strictly grows. -/

def bswbFuel {α : Type} [LinearOrder α] (l : List α) (item : α) :
    Nat → Int → Int → Option (Option Int)
  | 0, _, _ => none
  | n + 1, left, right =>
    if left ≤ right then
      match idx l (left + (right - left) / 2) with
      | none => some none
      | some midValue =>
        if midValue = item then some (some (left + (right - left) / 2))
        else if midValue < item then bswbFuel l item n ((left + (right - left) / 2) + 1) right
        else bswbFuel l item n left ((left + (right - left) / 2) - 1)
    else some (some (-1))

/-- The bounded binary-search loop finishes within `right - left + 1`
iterations: the searched interval strictly shrinks every iteration. -/
lemma bswbFuel_spec {α : Type} [LinearOrder α] (l : List α) (item : α) :
    ∀ (n : Nat) (left right : Int), (right + 1 - left).toNat < n →
      bswbFuel l item n left right = some (bswbLoop l item left right) := by
  intro n
  induction n with
  | zero =>
    intro left right h
    exact absurd h (Nat.not_lt_zero _)
  | succ n ih =>
    intro left right h
    by_cases hlr : left ≤ right
    · rcases hO : idx l (left + (right - left) / 2) with _ | mv
      · rw [bswbLoop_of_none l item hlr hO]
        simp [bswbFuel, hlr, hO]
      · by_cases hme : mv = item
        · rw [bswbLoop_of_found l item hlr hO hme]
          simp [bswbFuel, hlr, hO, hme]
        · by_cases hmlt : mv < item
          · rw [bswbLoop_of_lt l item hlr hO hme hmlt]
            simp only [bswbFuel, if_pos hlr, hO]
            rw [if_neg hme, if_pos hmlt]
            exact ih _ _ (by omega)
          · rw [bswbLoop_of_gt l item hlr hO hme hmlt]
            simp only [bswbFuel, if_pos hlr, hO]
            rw [if_neg hme, if_neg hmlt]
            exact ih _ _ (by omega)
    · rw [bswbLoop_of_not_le l item hlr]
      simp [bswbFuel, hlr]

def expFuel {α : Type} [LinearOrder α] (l : List α) (item : α) :
    Nat → Nat → Option Nat
  | 0, _ => none
  | n + 1, bound =>
    if h : bound < l.length then
      if l.get ⟨bound, h⟩ < item then expFuel l item n (bound * 2)
      else some bound
    else some bound

/-- The doubling loop finishes within `length - bound` iterations: the
bound strictly grows (it at least doubles from a positive value) until it
reaches the length. -/
lemma expFuel_spec {α : Type} [LinearOrder α] (l : List α) (item : α) :
    ∀ (n : Nat) (bound : Nat) (hb : 0 < bound), l.length - bound < n →
      expFuel l item n bound = some (expLoop l item bound hb) := by
  intro n
  induction n with
  | zero =>
    intro bound hb h
    exact absurd h (Nat.not_lt_zero _)
  | succ n ih =>
    intro bound hb h
    by_cases hbl : bound < l.length
    · by_cases hlt : l.get ⟨bound, hbl⟩ < item
      · rw [expLoop_of_step l item hb hbl hlt]
        simp only [expFuel, dif_pos hbl, if_pos hlt]
        exact ih _ (by omega) (by omega)
      · rw [expLoop_of_stop_inner l item hb hbl hlt]
        simp only [expFuel, dif_pos hbl, if_neg hlt]
    · rw [expLoop_of_stop_outer l item hb hbl]
      simp only [expFuel, dif_neg hbl]

def interpFuel (l : List Int) (item : Int) :
    Nat → Int → Int → Option (Option Int)
  | 0, _, _ => none
  | n + 1, left, right =>
    if left ≤ right then
      match idx l left with
      | none => some none
      | some leftValue =>
        if leftValue ≤ item then
          match idx l right with
          | none => some none
          | some rightValue =>
            if item ≤ rightValue then
              if leftValue = rightValue then
                some (some (if leftValue = item then left else -1))
              else
                match idx l (max left (min (left + ((item - leftValue) * (right - left)) / (rightValue - leftValue)) right)) with
                | none => some none
                | some posValue =>
                  if posValue = item then
                    some (some (max left (min (left + ((item - leftValue) * (right - left)) / (rightValue - leftValue)) right)))
                  else if posValue < item then
                    interpFuel l item n ((max left (min (left + ((item - leftValue) * (right - left)) / (rightValue - leftValue)) right)) + 1) right
                  else
                    interpFuel l item n left ((max left (min (left + ((item - leftValue) * (right - left)) / (rightValue - leftValue)) right)) - 1)
            else some (some (-1))
        else some (some (-1))
    else some (some (-1))

/-- The interpolation loop finishes within `right - left + 1` iterations:
the probed position is clamped into `[left, right]`, so the searched
interval strictly shrinks every iteration. -/
lemma interpFuel_spec (l : List Int) (item : Int) :
    ∀ (n : Nat) (left right : Int), (right + 1 - left).toNat < n →
      interpFuel l item n left right = some (interpLoop l item left right) := by
  intro n
  induction n with
  | zero =>
    intro left right h
    exact absurd h (Nat.not_lt_zero _)
  | succ n ih =>
    intro left right h
    by_cases hlr : left ≤ right
    · rcases hL : idx l left with _ | lv
      · rw [interpLoop_of_left_none l item hlr hL]
        simp [interpFuel, hlr, hL]
      · by_cases hvl : lv ≤ item
        · rcases hR : idx l right with _ | rv
          · rw [interpLoop_of_right_none l item hlr hL hvl hR]
            simp [interpFuel, hlr, hL, hvl, hR]
          · by_cases hvr : item ≤ rv
            · by_cases heq : lv = rv
              · have hveq : lv = item := le_antisymm hvl (by omega)
                rw [interpLoop_of_eq l item hlr hL hvl hR hvr heq]
                simp [interpFuel, hlr, hL, hvl, hR, hvr, heq, hveq]
                intro hx
                exact absurd hx (by omega)
              · rcases hP : idx l (max left (min (left + ((item - lv) * (right - left)) / (rv - lv)) right)) with _ | pv
                · rw [interpLoop_of_pos_none l item hlr hL hvl hR hvr heq hP]
                  simp [interpFuel, hlr, hL, hvl, hR, hvr, heq, hP]
                · by_cases hpe : pv = item
                  · rw [hpe] at hP
                    rw [interpLoop_of_pos_found l item hlr hL hvl hR hvr heq hP]
                    simp [interpFuel, hlr, hL, hvl, hR, hvr, heq, hP]
                  · by_cases hplt : pv < item
                    · rw [interpLoop_of_pos_lt l item hlr hL hvl hR hvr heq hP hpe hplt]
                      simp only [interpFuel, if_pos hlr, hL, hR, hP]
                      rw [if_pos hvl, if_pos hvr, if_neg heq, if_neg hpe, if_pos hplt]
                      exact ih _ _ (by omega)
                    · rw [interpLoop_of_pos_gt l item hlr hL hvl hR hvr heq hP hpe hplt]
                      simp only [interpFuel, if_pos hlr, hL, hR, hP]
                      rw [if_pos hvl, if_pos hvr, if_neg heq, if_neg hpe, if_neg hplt]
                      exact ih _ _ (by omega)
            · rw [interpLoop_of_right_lt l item hlr hL hvl hR hvr]
              simp [interpFuel, hlr, hL, hvl, hR, hvr]
        · rw [interpLoop_of_left_gt l item hlr hL hvl]
          simp [interpFuel, hlr, hL, hvl]
    · rw [interpLoop_of_not_le l item hlr]
      simp [interpFuel, hlr]

/-! ### Evaluation helpers: computing the loops through their fuel versions -/

lemma bswbLoop_eval {α : Type} [LinearOrder α] (l : List α) (item : α)
    (n : Nat) (left right : Int) (r : Option Int)
    (h : (right + 1 - left).toNat < n)
    (hf : bswbFuel l item n left right = some r) :
    bswbLoop l item left right = r :=
  Option.some.inj ((bswbFuel_spec l item n left right h).symm.trans hf)

lemma expLoop_eval {α : Type} [LinearOrder α] (l : List α) (item : α)
    (n bound : Nat) (hb : 0 < bound) (r : Nat)
    (h : l.length - bound < n)
    (hf : expFuel l item n bound = some r) :
    expLoop l item bound hb = r :=
  Option.some.inj ((expFuel_spec l item n bound hb h).symm.trans hf)

lemma interpLoop_eval (l : List Int) (item : Int)
    (n : Nat) (left right : Int) (r : Option Int)
    (h : (right + 1 - left).toNat < n)
    (hf : interpFuel l item n left right = some r) :
    interpLoop l item left right = r :=
  Option.some.inj ((interpFuel_spec l item n left right h).symm.trans hf)

/-! ### The claims -/

/-- C1: for every sorted sequence `S` and target `v`: if `v` is present in
`S`, `binary_search S v` returns an index `i` such that `S[i] = v`; if `v`
is absent from `S`, `binary_search S v` returns `-1` ("not found"). -/
theorem C1_binary_search_correct {α : Type} [LinearOrder α]
    (l : List α) (item : α) (hs : l.Sorted (· ≤ ·)) :
    (item ∈ l → ∃ k : Nat, ∃ hk : k < l.length,
        binary_search l item = some (k : Int) ∧ l.get ⟨k, hk⟩ = item)
    ∧ (item ∉ l → binary_search l item = some (-1)) :=
  binary_search_spec l item hs

/-- Witness for C1 at `S = [0, 5, 7, 10, 15]`, `v = 10`. -/
theorem C1_binary_search_correct_witness :
    ([0, 5, 7, 10, 15] : List Int).Sorted (· ≤ ·) ∧
    ((((10 : Int) ∈ ([0, 5, 7, 10, 15] : List Int)) →
        ∃ k : Nat, ∃ hk : k < ([0, 5, 7, 10, 15] : List Int).length,
          binary_search ([0, 5, 7, 10, 15] : List Int) 10 = some (k : Int) ∧
          ([0, 5, 7, 10, 15] : List Int).get ⟨k, hk⟩ = 10)
      ∧ (((10 : Int) ∉ ([0, 5, 7, 10, 15] : List Int)) →
          binary_search ([0, 5, 7, 10, 15] : List Int) 10 = some (-1))) :=
  ⟨by decide, C1_binary_search_correct ([0, 5, 7, 10, 15] : List Int) 10 (by decide)⟩

/-- C2: for every sorted sequence `S`, target `v` and valid inclusive bounds
`0 ≤ low ≤ high ≤ length - 1`, `binary_search_with_bounds S v low high`
behaves exactly like `binary_search` applied to the sub-sequence
`S[low..high]`, with found indices offset by `low` and `-1` kept as `-1`. -/
theorem C2_bounded_matches_binary_on_slice {α : Type} [LinearOrder α]
    (l : List α) (item : α) (low high : Int) (_hs : l.Sorted (· ≤ ·))
    (h0 : 0 ≤ low) (hlh : low ≤ high) (hh : high ≤ (l.length : Int) - 1) :
    binary_search_with_bounds l item low (some high) =
      (binary_search ((l.drop low.toNat).take (high - low + 1).toNat) item).map
        (fun r => if r = -1 then -1 else r + low) := by
  have hh' : high < (l.length : Int) := by omega
  have hlen := slice_length l low high h0 hh'
  have hsub : binary_search ((l.drop low.toNat).take (high - low + 1).toNat) item =
      bswbLoop ((l.drop low.toNat).take (high - low + 1).toNat) item 0 (high - low) := by
    unfold binary_search
    rw [bsLoop_eq_bswbLoop, hlen]
    congr 1
    omega
  rw [hsub]
  have hmain := bswbLoop_slice l item low high h0 hh' 0 (high - low) le_rfl (by omega)
  have h1 : low + 0 = low := by omega
  have h2 : low + (high - low) = high := by omega
  rw [h1, h2] at hmain
  have hdef : binary_search_with_bounds l item low (some high) =
      bswbLoop l item low high := rfl
  rw [hdef]
  exact hmain

/-- Witness for C2 at `S = [1, 2, 3, 4, 5, 6]`, `v = 3`, `low = 1`,
`high = 4`. -/
theorem C2_bounded_matches_binary_on_slice_witness :
    ([1, 2, 3, 4, 5, 6] : List Int).Sorted (· ≤ ·) ∧ (0 : Int) ≤ 1 ∧ (1 : Int) ≤ 4 ∧
    (4 : Int) ≤ (([1, 2, 3, 4, 5, 6] : List Int).length : Int) - 1 ∧
    binary_search_with_bounds ([1, 2, 3, 4, 5, 6] : List Int) 3 1 (some 4) =
      (binary_search ((([1, 2, 3, 4, 5, 6] : List Int).drop (1 : Int).toNat).take
          ((4 : Int) - 1 + 1).toNat) 3).map
        (fun r => if r = -1 then -1 else r + 1) :=
  ⟨by decide, by decide, by decide, by decide,
    C2_bounded_matches_binary_on_slice ([1, 2, 3, 4, 5, 6] : List Int) 3 1 4
      (by decide) (by decide) (by decide) (by decide)⟩

/-- C3: for every sorted sequence `S` and target `v`, `exponential_search`
and `binary_search` agree on found/not-found status: either both return
`-1`, or both return (possibly different) indices whose elements equal
`v`. -/
theorem C3_exponential_agrees_with_binary {α : Type} [LinearOrder α]
    (l : List α) (item : α) (hs : l.Sorted (· ≤ ·)) :
    (exponential_search l item = some (-1) ↔ binary_search l item = some (-1)) ∧
    (∀ i : Int, exponential_search l item = some i → i ≠ -1 →
      ∃ k : Nat, i = (k : Int) ∧ ∃ hk : k < l.length, l.get ⟨k, hk⟩ = item) ∧
    (∀ i : Int, binary_search l item = some i → i ≠ -1 →
      ∃ k : Nat, i = (k : Int) ∧ ∃ hk : k < l.length, l.get ⟨k, hk⟩ = item) := by
  obtain ⟨he1, he2⟩ := exponential_search_spec l item hs
  obtain ⟨hb1, hb2⟩ := binary_search_spec l item hs
  by_cases hmem : item ∈ l
  · obtain ⟨k1, hk1, he, hg1⟩ := he1 hmem
    obtain ⟨k2, hk2, hb, hg2⟩ := hb1 hmem
    refine ⟨⟨?_, ?_⟩, ?_, ?_⟩
    · intro hx
      rw [he] at hx
      exact absurd (Option.some.inj hx) (by omega)
    · intro hx
      rw [hb] at hx
      exact absurd (Option.some.inj hx) (by omega)
    · intro i hi _
      rw [he] at hi
      exact ⟨k1, (Option.some.inj hi).symm, hk1, hg1⟩
    · intro i hi _
      rw [hb] at hi
      exact ⟨k2, (Option.some.inj hi).symm, hk2, hg2⟩
  · refine ⟨by rw [he2 hmem, hb2 hmem], ?_, ?_⟩
    · intro i hi hne
      rw [he2 hmem] at hi
      exact absurd (Option.some.inj hi).symm hne
    · intro i hi hne
      rw [hb2 hmem] at hi
      exact absurd (Option.some.inj hi).symm hne

/-- Witness for C3 at `S = [1, 2, 2, 2, 3, 4, 5]`, `v = 2`. -/
theorem C3_exponential_agrees_with_binary_witness :
    ([1, 2, 2, 2, 3, 4, 5] : List Int).Sorted (· ≤ ·) ∧
    ((exponential_search ([1, 2, 2, 2, 3, 4, 5] : List Int) 2 = some (-1) ↔
        binary_search ([1, 2, 2, 2, 3, 4, 5] : List Int) 2 = some (-1)) ∧
      (∀ i : Int, exponential_search ([1, 2, 2, 2, 3, 4, 5] : List Int) 2 = some i → i ≠ -1 →
        ∃ k : Nat, i = (k : Int) ∧ ∃ hk : k < ([1, 2, 2, 2, 3, 4, 5] : List Int).length,
          ([1, 2, 2, 2, 3, 4, 5] : List Int).get ⟨k, hk⟩ = 2) ∧
      (∀ i : Int, binary_search ([1, 2, 2, 2, 3, 4, 5] : List Int) 2 = some i → i ≠ -1 →
        ∃ k : Nat, i = (k : Int) ∧ ∃ hk : k < ([1, 2, 2, 2, 3, 4, 5] : List Int).length,
          ([1, 2, 2, 2, 3, 4, 5] : List Int).get ⟨k, hk⟩ = 2)) :=
  ⟨by decide, C3_exponential_agrees_with_binary ([1, 2, 2, 2, 3, 4, 5] : List Int) 2 (by decide)⟩

/-- C4: for every sorted sequence of integers `S` and integer target `v`,
`interpolation_search` returns an index holding `v` exactly when `v` is
present and `-1` exactly when absent, so it agrees with `binary_search` on
found/not-found status. -/
theorem C4_interpolation_agrees_with_binary (l : List Int) (item : Int)
    (hs : l.Sorted (· ≤ ·)) :
    ((item ∈ l → ∃ k : Nat, ∃ hk : k < l.length,
        interpolation_search l item = some (k : Int) ∧ l.get ⟨k, hk⟩ = item)
      ∧ (item ∉ l → interpolation_search l item = some (-1)))
    ∧ (interpolation_search l item = some (-1) ↔ binary_search l item = some (-1)) := by
  obtain ⟨hi1, hi2⟩ := interpolation_search_spec l item hs
  obtain ⟨hb1, hb2⟩ := binary_search_spec l item hs
  refine ⟨⟨hi1, hi2⟩, ?_⟩
  by_cases hmem : item ∈ l
  · obtain ⟨k1, hk1, he, _⟩ := hi1 hmem
    obtain ⟨k2, hk2, hb, _⟩ := hb1 hmem
    rw [he, hb]
    constructor
    · intro hx
      exact absurd (Option.some.inj hx) (by omega)
    · intro hx
      exact absurd (Option.some.inj hx) (by omega)
  · rw [hi2 hmem, hb2 hmem]

/-- Witness for C4 at `S = [1, 2, 4, 7]`, `v = 4`. -/
theorem C4_interpolation_agrees_with_binary_witness :
    ([1, 2, 4, 7] : List Int).Sorted (· ≤ ·) ∧
    ((((4 : Int) ∈ ([1, 2, 4, 7] : List Int) →
          ∃ k : Nat, ∃ hk : k < ([1, 2, 4, 7] : List Int).length,
            interpolation_search ([1, 2, 4, 7] : List Int) 4 = some (k : Int) ∧
            ([1, 2, 4, 7] : List Int).get ⟨k, hk⟩ = 4)
        ∧ ((4 : Int) ∉ ([1, 2, 4, 7] : List Int) →
            interpolation_search ([1, 2, 4, 7] : List Int) 4 = some (-1)))
      ∧ (interpolation_search ([1, 2, 4, 7] : List Int) 4 = some (-1) ↔
          binary_search ([1, 2, 4, 7] : List Int) 4 = some (-1))) :=
  ⟨by decide, C4_interpolation_agrees_with_binary ([1, 2, 4, 7] : List Int) 4 (by decide)⟩

/-- C5: for every sequence `S` and target `v`, `binary_search S v` returns
exactly the same result as `binary_search_with_bounds S v` with its default
bounds (`left = 0`, `right = None`), including on empty sequences. -/
theorem C5_binary_search_eq_bounded_default {α : Type} [LinearOrder α]
    (l : List α) (item : α) :
    binary_search l item = binary_search_with_bounds l item 0 none :=
  bsLoop_eq_bswbLoop l item 0 ((l.length : Int) - 1)

/-- C6: on `S = [1, 2, 2, 2, 3, 4, 5]` with target `2`, each of
`binary_search`, `binary_search_with_bounds` (default bounds) and
`exponential_search` returns some index holding the value `2` (the probing
order determines which duplicate: the two binary searches land on index 3,
the exponential search on index 1 — not the first occurrence). -/
theorem C6_duplicates_concrete :
    (∃ k : Nat, binary_search ([1, 2, 2, 2, 3, 4, 5] : List Int) 2 = some (k : Int) ∧
        ([1, 2, 2, 2, 3, 4, 5] : List Int)[k]? = some 2) ∧
    (∃ k : Nat, binary_search_with_bounds ([1, 2, 2, 2, 3, 4, 5] : List Int) 2 = some (k : Int) ∧
        ([1, 2, 2, 2, 3, 4, 5] : List Int)[k]? = some 2) ∧
    (∃ k : Nat, exponential_search ([1, 2, 2, 2, 3, 4, 5] : List Int) 2 = some (k : Int) ∧
        ([1, 2, 2, 2, 3, 4, 5] : List Int)[k]? = some 2) := by
  have h1 : bswbLoop ([1, 2, 2, 2, 3, 4, 5] : List Int) 2 0 6 = some 3 :=
    bswbLoop_eval _ _ 8 0 6 (some 3) (by decide) (by decide)
  have hbs : binary_search ([1, 2, 2, 2, 3, 4, 5] : List Int) 2 = some 3 := by
    unfold binary_search
    rw [bsLoop_eq_bswbLoop]
    exact h1
  have hbw : binary_search_with_bounds ([1, 2, 2, 2, 3, 4, 5] : List Int) 2 = some 3 := h1
  have hB : expLoop ([1, 2, 2, 2, 3, 4, 5] : List Int) 2 1 Nat.one_pos = 1 :=
    expLoop_eval _ _ 8 1 Nat.one_pos 1 (by decide) (by decide)
  have hexp : exponential_search ([1, 2, 2, 2, 3, 4, 5] : List Int) 2 = some 1 := by
    have hunfold : exponential_search ([1, 2, 2, 2, 3, 4, 5] : List Int) 2 =
        bswbLoop ([1, 2, 2, 2, 3, 4, 5] : List Int) 2
          ((expLoop ([1, 2, 2, 2, 3, 4, 5] : List Int) 2 1 Nat.one_pos / 2 : Nat) : Int)
          (min ((expLoop ([1, 2, 2, 2, 3, 4, 5] : List Int) 2 1 Nat.one_pos : Nat) : Int)
            ((([1, 2, 2, 2, 3, 4, 5] : List Int).length : Int) - 1)) := by
      rw [exponential_search, if_neg (by decide)]
      rfl
    rw [hunfold, hB]
    exact bswbLoop_eval _ _ 8 _ _ (some 1) (by decide) (by decide)
  exact ⟨⟨3, hbs, by decide⟩, ⟨3, hbw, by decide⟩, ⟨1, hexp, by decide⟩⟩

/-- C7: for every sequence `S` (the statement quantifies over all lists, so
no element of `S` is consulted), any target and any explicit bounds with
`low > high`, `binary_search_with_bounds` returns `-1` right away; in
particular the result is `some` — the out-of-range access marker `none` is
never produced. -/
theorem C7_malformed_bounds_not_found {α : Type} [LinearOrder α]
    (l : List α) (item : α) (low high : Int) (h : high < low) :
    binary_search_with_bounds l item low (some high) = some (-1) := by
  have hdef : binary_search_with_bounds l item low (some high) =
      bswbLoop l item low high := rfl
  rw [hdef]
  exact bswbLoop_of_not_le l item (by omega)

/-- Witness for C7 on the empty sequence with bounds `low = 4 > high = 2`. -/
theorem C7_malformed_bounds_not_found_witness :
    (2 : Int) < 4 ∧
    binary_search_with_bounds ([] : List Int) 0 4 (some 2) = some (-1) :=
  ⟨by decide, C7_malformed_bounds_not_found ([] : List Int) 0 4 2 (by decide)⟩

/-- C8: whenever the interpolation loop is at its top with the guard
satisfied (`left ≤ right`, element at `left` ≤ `item` ≤ element at `right`)
and the elements at `left` and `right` are equal, it returns
(`left` if that shared value equals the target, else `-1`) without reaching
the interpolated-position computation; and when they are unequal, the
divisor `rightValue - leftValue` of the interpolation formula is strictly
positive, so the division is never reached with a zero divisor. -/
theorem C8_equal_endpoints_guard (l : List Int) (item : Int)
    (left right leftValue rightValue : Int)
    (hlr : left ≤ right) (hL : idx l left = some leftValue)
    (hvl : leftValue ≤ item) (hR : idx l right = some rightValue)
    (hvr : item ≤ rightValue) :
    (leftValue = rightValue →
      interpLoop l item left right = some (if leftValue = item then left else -1)) ∧
    (leftValue ≠ rightValue → 0 < rightValue - leftValue) := by
  constructor
  · intro heq
    exact interpLoop_of_eq l item hlr hL hvl hR hvr heq
  · intro hne
    omega

/-- Witness for C8 at `S = [5, 5, 5]`, `v = 5`, full range. -/
theorem C8_equal_endpoints_guard_witness :
    (0 : Int) ≤ 2 ∧ idx ([5, 5, 5] : List Int) 0 = some 5 ∧ (5 : Int) ≤ 5 ∧
    idx ([5, 5, 5] : List Int) 2 = some 5 ∧ (5 : Int) ≤ 5 ∧
    ((((5 : Int) = 5) →
        interpLoop ([5, 5, 5] : List Int) 5 0 2 = some (if (5 : Int) = 5 then 0 else -1)) ∧
      (((5 : Int) ≠ 5) → 0 < (5 : Int) - 5)) :=
  ⟨by decide, by decide, by decide, by decide, by decide,
    C8_equal_endpoints_guard ([5, 5, 5] : List Int) 5 0 2 5 5
      (by decide) (by decide) (by decide) (by decide) (by decide)⟩

/-- C9: `binary_search`, `exponential_search` and `interpolation_search`,
on any list whatsoever (sorted or not) and any target, never perform an
element access outside `[0, length - 1]`: every access is routed through
`idx`, which yields the propagated marker `none` on an out-of-range index,
and the three searches always return `some` result. -/
theorem C9_searches_stay_in_range {α : Type} [LinearOrder α]
    (l : List α) (item : α) (li : List Int) (it : Int) :
    (binary_search l item).isSome ∧ (exponential_search l item).isSome ∧
      (interpolation_search li it).isSome :=
  ⟨binary_search_isSome l item, exponential_search_isSome l item,
    interpolation_search_isSome li it⟩

/-- C10: every call of the four search functions terminates on every input:
the two binary-search loops (which are the same function, last conjunct)
and the interpolation loop complete within `right - left + 1` iterations —
the interval strictly shrinks each iteration since the probe is clamped
into `[left, right]` — and the exponential doubling loop completes within
`length - bound` iterations, the bound strictly growing until it reaches
the length. -/
theorem C10_loops_terminate_within_bounds :
    (∀ {α : Type} [LinearOrder α] (l : List α) (item : α) (n : Nat) (left right : Int),
        (right + 1 - left).toNat < n →
        bswbFuel l item n left right = some (bswbLoop l item left right)) ∧
    (∀ {α : Type} [LinearOrder α] (l : List α) (item : α) (n bound : Nat) (hb : 0 < bound),
        l.length - bound < n →
        expFuel l item n bound = some (expLoop l item bound hb)) ∧
    (∀ (l : List Int) (item : Int) (n : Nat) (left right : Int),
        (right + 1 - left).toNat < n →
        interpFuel l item n left right = some (interpLoop l item left right)) ∧
    (∀ {α : Type} [LinearOrder α] (l : List α) (item : α) (left right : Int),
        bsLoop l item left right = bswbLoop l item left right) :=
  ⟨fun l item n left right h => bswbFuel_spec l item n left right h,
   fun l item n bound hb h => expFuel_spec l item n bound hb h,
   fun l item n left right h => interpFuel_spec l item n left right h,
   fun l item left right => bsLoop_eq_bswbLoop l item left right⟩

/-- Witness for C10 at `S = [1, 2, 3]` with explicit iteration budgets. -/
theorem C10_loops_terminate_within_bounds_witness :
    (((2 : Int) + 1 - 0).toNat < 4 ∧
      bswbFuel ([1, 2, 3] : List Int) 2 4 0 2 =
        some (bswbLoop ([1, 2, 3] : List Int) 2 0 2)) ∧
    (0 < 1 ∧ ([1, 2, 3] : List Int).length - 1 < 4 ∧
      expFuel ([1, 2, 3] : List Int) 3 4 1 =
        some (expLoop ([1, 2, 3] : List Int) 3 1 Nat.one_pos)) ∧
    (((2 : Int) + 1 - 0).toNat < 4 ∧
      interpFuel ([1, 2, 3] : List Int) 2 4 0 2 =
        some (interpLoop ([1, 2, 3] : List Int) 2 0 2)) ∧
    bsLoop ([1, 2, 3] : List Int) 2 0 2 = bswbLoop ([1, 2, 3] : List Int) 2 0 2 :=
  ⟨⟨by decide,
      C10_loops_terminate_within_bounds.1 ([1, 2, 3] : List Int) 2 4 0 2 (by decide)⟩,
   ⟨by decide, by decide,
      C10_loops_terminate_within_bounds.2.1 ([1, 2, 3] : List Int) 3 4 1 Nat.one_pos (by decide)⟩,
   ⟨by decide,
      C10_loops_terminate_within_bounds.2.2.1 ([1, 2, 3] : List Int) 2 4 0 2 (by decide)⟩,
   C10_loops_terminate_within_bounds.2.2.2 ([1, 2, 3] : List Int) 2 0 2⟩

end BinSearch
